import Mathlib

/-!
Verification of the metapyle fetch-orchestration and range-aware cache core.

The definitions below are a shallow embedding of the Python source:

* `Metapyle.CacheKey`, `Metapyle.CacheState`, `Metapyle.Cache.get`,
  `Metapyle.Cache.put`, `Metapyle.Cache.clear` embed `src/metapyle/cache.py`.
  The SQLite store is modelled as a list of live records in rowid
  (insertion) order; `fetchone` on an unordered query is the first match in
  that order.  Dates are ISO `YYYY-MM-DD` strings compared with the string
  order, exactly as SQLite compares TEXT columns and as `pd.Timestamp`
  comparison agrees with it on ISO dates.
* `Metapyle.make_column_name`, `Metapyle.resolveColumn`,
  `Metapyle.processGroup` embed the column-resolution fallback chain of
  `Client.get` (`src/metapyle/client.py`) and `make_column_name`
  (`src/metapyle/sources/base.py`).
* `Metapyle.assemble` embeds `Client._assemble_dataframe`.
* `Metapyle.alignLast` embeds `align_to_frequency`
  (`src/metapyle/processing.py`): `df.resample(freq).last().ffill()`,
  parameterised by the period-grouping map a pandas frequency string
  induces on dates (monthly is `monthIndex`).  The index is taken sorted
  ascending, as the date-range indexes the pipeline produces are.
* `Metapyle.Catalog.get` and `Metapyle.clientGet` embed catalog resolution
  and the orchestration pipeline of `Client.get`, with provider fetches
  supplied by an oracle and observable side effects recorded in a trace.
-/

namespace Metapyle

/-- A table cell value (the payload type of a cached series is irrelevant
to the properties proved here; one column of `Int` values stands for it). -/
abbrev Value := Int

/-- A single-series table: rows `(date, value)` with ISO-string dates,
in index order.  Embeds the per-symbol `pd.DataFrame`. -/
abbrev Table := List (String × Value)

/-- Composite cache key, from the `cache_entries` schema of `cache.py`:
`(source, symbol, field, path, start_date, end_date)` with `field` and
`path` nullable. -/
structure CacheKey where
  source : String
  symbol : String
  field : Option String
  path : Option String
  start_date : String
  end_date : String
  deriving DecidableEq, Repr

/-- One live row of `cache_entries` joined with its `cache_data` blob. -/
structure CacheRecord where
  key : CacheKey
  table : Table
  deriving DecidableEq, Repr

/-- The cache: `enabled` flag plus the live records in rowid order. -/
structure CacheState where
  enabled : Bool
  records : List CacheRecord
  deriving DecidableEq, Repr

/-- Lexicographic comparison of character lists by code point. -/
def charListLe : List Char → List Char → Bool
  | [], _ => true
  | _ :: _, [] => false
  | a :: as, b :: bs =>
      if a.val < b.val then true
      else if b.val < a.val then false
      else charListLe as bs

/-- The order SQLite's `<=` puts on ISO `YYYY-MM-DD` TEXT dates
(byte-wise lexicographic, which coincides with chronological order on
ISO dates and with `pd.Timestamp` comparison). -/
def dateLe (a b : String) : Bool := charListLe a.data b.data

/-- The four-branch null-aware key match of `Cache.get` (`cache.py`
lines 287-349): each SQL branch tests `field IS NULL`/`field = ?` and
`path IS NULL`/`path = ?` explicitly. -/
def keyMatch (source symbol : String) (field path : Option String)
    (k : CacheKey) : Bool :=
  match field, path with
  | none, none =>
      k.source == source && k.symbol == symbol && k.field.isNone && k.path.isNone
  | none, some p =>
      k.source == source && k.symbol == symbol && k.field.isNone && k.path == some p
  | some f, none =>
      k.source == source && k.symbol == symbol && k.field == some f && k.path.isNone
  | some f, some p =>
      k.source == source && k.symbol == symbol && k.field == some f && k.path == some p

/-- The `WHERE` clause of the `Cache.get` lookup: null-aware key match plus
range containment `ce.start_date <= ? AND ce.end_date >= ?`. -/
def getMatch (source symbol : String) (field path : Option String)
    (start_date end_date : String) (r : CacheRecord) : Bool :=
  keyMatch source symbol field path r.key
    && dateLe r.key.start_date start_date
    && dateLe end_date r.key.end_date

/-- Row filter `df[(df.index >= start_dt) & (df.index <= end_dt)]` applied
by `Cache.get` when the requested range is a strict sub-range. -/
def filterRange (start_date end_date : String) (t : Table) : Table :=
  t.filter (fun row => dateLe start_date row.1 && dateLe row.1 end_date)

/-- `Cache.get` (`cache.py` lines 247-397), happy path: find the first
record whose key matches null-aware and whose stored range contains the
requested range; if the requested range differs from the stored one,
filter the rows to it, otherwise hand the stored table back unfiltered. -/
def Cache.get (st : CacheState) (source symbol : String)
    (field path : Option String) (start_date end_date : String) :
    Option Table :=
  if !st.enabled then none
  else
    match st.records.find? (getMatch source symbol field path start_date end_date) with
    | none => none
    | some r =>
        if start_date != r.key.start_date || end_date != r.key.end_date then
          some (filterRange start_date end_date r.table)
        else
          some r.table

/-- The exact six-component match used by `Cache._delete_entry`
(`cache.py` lines 558-613): the same four-branch null handling plus
`start_date = ? AND end_date = ?`. -/
def exactKeyMatch (k : CacheKey) (r : CacheRecord) : Bool :=
  keyMatch k.source k.symbol k.field k.path r.key
    && r.key.start_date == k.start_date
    && r.key.end_date == k.end_date

/-- `Cache._delete_entry`: fetch the id of the first row with the exact
key and delete that row (and its blob). -/
def Cache.deleteEntry (records : List CacheRecord) (k : CacheKey) :
    List CacheRecord :=
  records.eraseP (exactKeyMatch k)

/-- `Cache.put` (`cache.py` lines 163-245), happy path: delete any
existing record for the exact key, then insert the new record (a fresh
autoincrement id puts it last in rowid order). -/
def Cache.put (st : CacheState) (k : CacheKey) (data : Table) : CacheState :=
  if !st.enabled then st
  else { st with records := Cache.deleteEntry st.records k ++ [⟨k, data⟩] }

/-- `Cache.clear` (`cache.py` lines 399-453): with both `source` and
`symbol`, delete exactly the records matching both; with any other
argument combination, delete every record. -/
def Cache.clear (st : CacheState) (source symbol : Option String) : CacheState :=
  if !st.enabled then st
  else
    match source, symbol with
    | some src, some sym =>
        { st with
          records := st.records.filter
            (fun r => !(r.key.source == src && r.key.symbol == sym)) }
    | _, _ => { st with records := [] }

/-- `Client.clear_cache` (`client.py` lines 418-432): delegates to
`Cache.clear` passing only the source (`symbol` is never supplied). -/
def Client.clear_cache (st : CacheState) (source : Option String) : CacheState :=
  Cache.clear st source none

/-! ## Defensive error handling (`try`/`except` in `Cache.put` / `Cache.get`)

The storage layer (parquet serialisation, SQL statements, blob
deserialisation) can raise; `cache.py` wraps each operation's body in
`try … except Exception`.  The bodies are embedded as `Except`-valued
computations over fallible storage primitives, and the public operations
as the catching wrappers. -/

/-- The fallible storage primitives an operation's body calls:
`DataFrame.to_parquet` in `put` and `pd.read_parquet` on the stored blob
in `get`.  A blob is modelled as the serialised table itself. -/
structure Storage where
  serialize : Table → Except String Table
  deserialize : Table → Except String Table

/-- Body of `Cache.put` inside the `try` block: serialise the frame,
delete any record under the exact key, insert the new entry and blob. -/
def Cache.putBody (sto : Storage) (st : CacheState) (k : CacheKey)
    (data : Table) : Except String CacheState := do
  let blob ← sto.serialize data
  pure { st with records := Cache.deleteEntry st.records k ++ [⟨k, blob⟩] }

/-- `Cache.put` with its `except Exception` handler (`cache.py` lines
199-245): a storage exception is caught and logged and the operation
becomes a no-op on the cache state; no exception escapes. -/
def Cache.putSafe (sto : Storage) (st : CacheState) (k : CacheKey)
    (data : Table) : CacheState :=
  if !st.enabled then st
  else
    match Cache.putBody sto st k data with
    | .ok st' => st'
    | .error _ => st

/-- Body of `Cache.get` inside the `try` block: run the lookup query,
deserialise the blob of the hit, filter to the requested sub-range. -/
def Cache.getBody (sto : Storage) (st : CacheState) (source symbol : String)
    (field path : Option String) (start_date end_date : String) :
    Except String (Option Table) := do
  match st.records.find? (getMatch source symbol field path start_date end_date) with
  | none => pure none
  | some r => do
      let df ← sto.deserialize r.table
      if start_date != r.key.start_date || end_date != r.key.end_date then
        pure (some (filterRange start_date end_date df))
      else
        pure (some df)

/-- `Cache.get` with its `except Exception` handler (`cache.py` lines
287-397): a storage exception (e.g. a corrupt blob) is caught and logged
and the lookup degrades to a miss (`None`); no exception escapes. -/
def Cache.getSafe (sto : Storage) (st : CacheState) (source symbol : String)
    (field path : Option String) (start_date end_date : String) :
    Option Table :=
  if !st.enabled then none
  else
    match Cache.getBody sto st source symbol field path start_date end_date with
    | .ok v => v
    | .error _ => none

/-! ## Column naming and the resolution fallback chain -/

/-- `make_column_name` (`sources/base.py` lines 38-54):
`f"{symbol}::{field}" if field else symbol`.  Python truthiness: both
`None` and the empty string fall through to the bare symbol. -/
def make_column_name (symbol : String) (field : Option String) : String :=
  match field with
  | some f => if f == "" then symbol else symbol ++ "::" ++ f
  | none => symbol

/-- Python's `str.lower()` on the ASCII column names the pipeline uses:
lowercase each character. -/
def strLower (s : String) : String := ⟨s.data.map Char.toLower⟩

/-- The case-insensitive lookup map `{col.lower(): col for col in cols}`
of `Client.get` (line 217): a Python dict comprehension is last-wins, so
lookup finds the last column whose lowercase form matches. -/
def lowerToActual (cols : List String) (key : String) : Option String :=
  cols.reverse.find? (fun c => strLower c == key)

/-- The three-step column-resolution fallback of `Client.get` (lines
221-234): (a) the composite `make_column_name(symbol, field)`; (b) the
symbol-only `make_column_name(symbol, None)`; (c) a case-insensitive
match of the symbol-only name against the returned columns.  Returns the
column name used, or `none` when every step misses. -/
def resolveColumn (cols : List String) (symbol : String)
    (field : Option String) : Option String :=
  let n1 := make_column_name symbol field
  if cols.contains n1 then some n1
  else
    let n2 := make_column_name symbol none
    if cols.contains n2 then some n2
    else
      match lowerToActual cols (strLower n2) with
      | some actual => some actual
      | none => none

/-- A resolved catalog entry as consumed by the orchestrator
(`catalog.py` `CatalogEntry`, the fields the core uses). -/
structure CatalogEntry where
  my_name : String
  source : String
  symbol : String
  field : Option String
  path : Option String
  deriving DecidableEq, Repr

/-- A provider's returned multi-column table: named columns in order,
each a list of values (`pd.DataFrame` columns). -/
abbrev WideTable := List (String × List Value)

/-- `result_df[[col_name]]`: the single named column of a provider
response (first occurrence, as pandas label lookup). -/
def columnOf (df : WideTable) (col : String) : List Value :=
  (((df.find? (fun c => c.1 == col)).map Prod.snd).getD [])

/-- The split loop of `Client.get` (lines 220-260) over one provider
batch: resolve each entry's column via the fallback chain; a resolved
entry contributes its column, an unresolved one is dropped with a
warning and the loop continues with the remaining entries. -/
def resolveEntries (entries : List CatalogEntry) (df : WideTable) :
    List (CatalogEntry × List Value) :=
  entries.filterMap (fun e =>
    (resolveColumn (df.map Prod.fst) e.symbol e.field).map
      (fun col => (e, columnOf df col)))

/-- The `dfs[entry.my_name] = col_df` writes of the split loop: logical
name to obtained column. -/
def processGroup (entries : List CatalogEntry) (df : WideTable) :
    List (String × List Value) :=
  (resolveEntries entries df).map (fun p => (p.1.my_name, p.2))

/-! ## Output assembly (`Client._assemble_dataframe`) -/

/-- `Client._assemble_dataframe` (`client.py` lines 380-416): empty input
gives an empty frame; otherwise each entry's first column is renamed to
its `my_name`, the renamed frames are concatenated, and the columns are
reordered by `[name for name in names if name in combined.columns]`.
`dfs` is the insertion-ordered dict `my_name -> DataFrame`. -/
def assemble (dfs : List (String × WideTable)) (names : List String) :
    WideTable :=
  if dfs.isEmpty then []
  else
    let renamed : WideTable :=
      dfs.map (fun p => (p.1, ((p.2.head?).map Prod.snd).getD []))
    let ordered := names.filter (fun n => renamed.any (fun c => c.1 == n))
    ordered.map (fun n =>
      (n, (((renamed.find? (fun c => c.1 == n)).map Prod.snd).getD [])))

/-! ## Catalog resolution and the fail-fast pipeline (`Client.get`) -/

/-- The truncated sorted name sample of `Catalog.get`'s error message:
`', '.join(sorted(self._entries.keys())[:5])` plus `"..."` when more
than five names exist. -/
def catalogSample (cat : List CatalogEntry) : String :=
  let names := (cat.map CatalogEntry.my_name).mergeSort (fun a b => a ≤ b)
  String.intercalate ", " (names.take 5)
    ++ (if 5 < names.length then "..." else "")

/-- The `SymbolNotFoundError` message of `Catalog.get`
(`catalog.py` lines 231-239). -/
def notFoundMessage (cat : List CatalogEntry) (name : String) : String :=
  "Symbol not found in catalog: " ++ name ++ ". Available: " ++ catalogSample cat

/-- `Catalog.get` (`catalog.py` lines 231-239): dictionary lookup by
`my_name`; a missing name raises `SymbolNotFoundError` naming the
offending entry and a sample of valid names. -/
def Catalog.get (cat : List CatalogEntry) (name : String) :
    Except String CatalogEntry :=
  match cat.find? (fun e => e.my_name == name) with
  | some e => .ok e
  | none => .error (notFoundMessage cat name)

/-- Observable side effects of the pipeline, in program order: cache
probes, provider round-trips, cache writes. -/
inductive Effect where
  | cacheGet (source symbol : String) (field path : Option String)
  | providerFetch (source : String) (symbols : List String)
  | cachePut (source symbol : String) (field path : Option String)
  deriving DecidableEq, Repr

/-- One provider group of the batch-fetch phase of `Client.get` (lines
187-260): a single fetch round-trip for the group, then the split loop
caching each resolved column under its entry's key. -/
def runGroup (fetch : String → List CatalogEntry → WideTable)
    (source : String) (group : List CatalogEntry) :
    List (String × List Value) × List Effect :=
  let df := fetch source group
  let resolved := resolveEntries group df
  (resolved.map (fun p => (p.1.my_name, p.2)),
    Effect.providerFetch source (group.map CatalogEntry.symbol)
      :: (resolved.map (fun p =>
            Effect.cachePut p.1.source p.1.symbol p.1.field p.1.path)))

/-- `Client.get` (`client.py` lines 66-289) up to assembly, with the
observable effect trace.  Phase 1 resolves every name through the
catalog (line 144) — the comprehension raises at the first unresolvable
name, before any cache probe, fetch or write.  Phase 2 probes the cache
per entry; phase 3 groups the misses by source (sorted by source name)
and batch-fetches each group; phase 4 assembles in input-name order. -/
def clientGet (cat : List CatalogEntry) (st : CacheState)
    (fetch : String → List CatalogEntry → WideTable)
    (names : List String) (start_date end_date : String) :
    Except String WideTable × List Effect :=
  match names.mapM (Catalog.get cat) with
  | .error e => (.error e, [])
  | .ok entries =>
      let probed := entries.map (fun e =>
        (e, Cache.get st e.source e.symbol e.field e.path start_date end_date))
      let probeEffects := entries.map (fun e =>
        Effect.cacheGet e.source e.symbol e.field e.path)
      let hits : List (String × WideTable) :=
        probed.filterMap (fun p =>
          (p.2).map (fun t => (p.1.my_name, [(p.1.symbol, t.map Prod.snd)])))
      let misses := (probed.filter (fun p => (p.2).isNone)).map Prod.fst
      let sortedMisses := misses.mergeSort (fun a b => a.source ≤ b.source)
      let groups := sortedMisses.splitBy (fun a b => a.source == b.source)
      let fetched := groups.map (fun g =>
        runGroup fetch ((g.headD ⟨"", "", "", none, none⟩).source) g)
      let dfs := hits ++ (fetched.map Prod.fst).flatten.map
        (fun p => (p.1, [(p.1, p.2)]))
      (.ok (assemble dfs names),
        probeEffects ++ (fetched.map Prod.snd).flatten)

/-! ## Frequency alignment (`align_to_frequency`) -/

/-- A calendar date, as the `pd.Timestamp` index values. -/
structure MDate where
  year : Nat
  month : Nat
  day : Nat
  deriving DecidableEq, Repr

/-- The month grid cell of a date: the grouping the pandas `"ME"`
frequency induces. -/
def monthIndex (d : MDate) : Nat :=
  d.year * 12 + (d.month - 1)

/-- A date-indexed single-column frame, rows sorted ascending by date
(as the pipeline's date-range indexes are). -/
abbrev Series := List (MDate × Value)

/-- `.last()` of one resample bucket: the last row of the (sorted) input
falling in period `m` under the grouping `p`, `NaN` (`none`) for an
empty bucket. -/
def lastInPeriod (p : MDate → Nat) (rows : Series) (m : Nat) : Option Value :=
  ((rows.filter (fun r => p r.1 == m)).getLast?).map Prod.snd

/-- The resample grid: every period from the first row's to the last
row's, inclusive — `df.resample(freq)` buckets span the index's min to
its max with empty buckets kept as `NaN`. -/
def periodsOf (p : MDate → Nat) (rows : Series) : List Nat :=
  match rows.head?, rows.getLast? with
  | some a, some b =>
      (List.range (p b.1 + 1 - p a.1)).map (fun i => p a.1 + i)
  | _, _ => []

/-- `df.resample(freq).last()`: one output row per grid period, holding
the last observation of the period or `NaN`. -/
def resampleLast (p : MDate → Nat) (rows : Series) : List (Nat × Option Value) :=
  (periodsOf p rows).map (fun m => (m, lastInPeriod p rows m))

/-- `.ffill()`: carry the last seen value into `NaN` cells; leading
`NaN`s (before any observation) stay missing. -/
def ffillFrom (prev : Option Value) :
    List (Nat × Option Value) → List (Nat × Option Value)
  | [] => []
  | (m, v) :: rest =>
      match v with
      | some x => (m, some x) :: ffillFrom (some x) rest
      | none => (m, prev) :: ffillFrom prev rest

/-- `align_to_frequency` (`processing.py` lines 12-61):
`df.resample(target).last().ffill()`, for the period grid the target
frequency induces via `p`. -/
def alignLast (p : MDate → Nat) (rows : Series) : List (Nat × Option Value) :=
  ffillFrom none (resampleLast p rows)

/-- `true` iff the periods of consecutive rows count up by exactly one
from `m0`: the shape of an index already on the target grid (one row per
period, no gaps). -/
def consecFrom (m0 : Nat) : List Nat → Bool
  | [] => true
  | m :: rest => m == m0 && consecFrom (m0 + 1) rest

/-- A nonempty frame whose rows sit one per period on a gapless period
grid: "already on the target period grid". -/
def onGrid (p : MDate → Nat) (rows : Series) : Bool :=
  match rows with
  | [] => false
  | r :: _ => consecFrom (p r.1) (rows.map (fun x => p x.1))

/-- Day `i` (zero-based) of the 90-day daily grid starting 2024-01-01
(2024 is a leap year: January 31 days, February 29, then March). -/
def dayToDate2024 (i : Nat) : MDate :=
  if i < 31 then ⟨2024, 1, i + 1⟩
  else if i < 60 then ⟨2024, 2, i - 30⟩
  else ⟨2024, 3, i - 59⟩

/-- Ninety consecutive daily observations starting 2024-01-01, holding
the values `0..89` (the spec's alignment scenario input). -/
def daily90 : Series :=
  (List.range 90).map (fun i => (dayToDate2024 i, (i : Int)))

/-! ## `Client.list_cached` dispatch (`client.py` lines 434-451) -/

/-- The method names the `Cache` class body defines (`cache.py`:
`put`, `get`, `clear`, `close`, `list_cached_symbols`, `clear_symbol`,
private helpers). -/
def cacheMethodNames : List String :=
  ["__init__", "_initialize_database", "put", "get", "clear", "close",
   "list_cached_symbols", "clear_symbol", "_delete_entry"]

/-- The result of a Python attribute call: the value, or the
`AttributeError` the missing attribute name raises. -/
inductive PyResult (α : Type) where
  | ok (a : α) : PyResult α
  | attributeError (attr : String) : PyResult α
  deriving DecidableEq, Repr

/-- `Cache.list_cached_symbols` (`cache.py` lines 462-491): enumerate the
stored keys in `(source, symbol)` order. -/
def Cache.list_cached_symbols (st : CacheState) : List CacheKey :=
  if !st.enabled then []
  else (st.records.map CacheRecord.key).mergeSort
    (fun a b => a.source < b.source || (a.source == b.source && a.symbol ≤ b.symbol))

/-- `Client.list_cached` (`client.py` lines 434-451):
`return self._cache.list_cached_entries()` — a dynamic attribute lookup
of the name `list_cached_entries` on the `Cache` instance, which raises
`AttributeError` unless the class defines that method. -/
def Client.list_cached (st : CacheState) : PyResult (List CacheKey) :=
  if cacheMethodNames.contains "list_cached_entries" then
    .ok (Cache.list_cached_symbols st)
  else
    .attributeError "list_cached_entries"

/-- A cache populated with entries for `("p","A")`, `("p","B")` and
`("q","A")` over the same range — the clear-scoping scenario state. -/
def clearScopeState : CacheState :=
  ⟨true,
   [⟨⟨"p", "A", none, none, "2024-01-01", "2024-01-31"⟩, [("2024-01-02", 1)]⟩,
    ⟨⟨"p", "B", none, none, "2024-01-01", "2024-01-31"⟩, [("2024-01-02", 2)]⟩,
    ⟨⟨"q", "A", none, none, "2024-01-01", "2024-01-31"⟩, [("2024-01-02", 3)]⟩]⟩

/-- A sequence of `put` operations applied in order. -/
def putsFold (st : CacheState) (ops : List (CacheKey × Table)) : CacheState :=
  ops.foldl (fun s op => Cache.put s op.1 op.2) st

/-- The §3 invariant: at most one live record per composite CacheKey —
the keys of the live records are pairwise distinct. -/
def atMostOnePerKey (st : CacheState) : Prop :=
  st.records.Pairwise (fun a b => a.key ≠ b.key)

/-! ## Helper lemmas -/

/-- The four-branch SQL key match holds exactly when all four key
components are equal, null matching only null. -/
theorem keyMatch_iff (source symbol : String) (field path : Option String)
    (k : CacheKey) :
    keyMatch source symbol field path k = true ↔
      (k.source = source ∧ k.symbol = symbol ∧ k.field = field ∧ k.path = path) := by
  cases field <;> cases path <;>
    simp [keyMatch, Bool.and_eq_true, beq_iff_eq, Option.isNone_iff_eq_none,
      and_assoc]

/-- The lookup's `WHERE` clause, unfolded. -/
theorem getMatch_iff (source symbol : String) (field path : Option String)
    (s e : String) (r : CacheRecord) :
    getMatch source symbol field path s e r = true ↔
      (keyMatch source symbol field path r.key = true ∧
        dateLe r.key.start_date s = true ∧ dateLe e r.key.end_date = true) := by
  simp [getMatch, Bool.and_eq_true, and_assoc]

/-- The exact six-component match of `_delete_entry` holds exactly when
the record's key equals the given key. -/
theorem exactKeyMatch_iff (k : CacheKey) (r : CacheRecord) :
    exactKeyMatch k r = true ↔ r.key = k := by
  obtain ⟨ks, ky, kf, kp, k1, k2⟩ := k
  obtain ⟨⟨a, b, c, d, e, f⟩, t⟩ := r
  simp [exactKeyMatch, keyMatch_iff, CacheKey.mk.injEq, Bool.and_eq_true,
    beq_iff_eq]
  tauto

/-- `find?` finds `a` when `a` satisfies the predicate and is the only
element of the list that does. -/
theorem find_of_unique {α : Type} {p : α → Bool} {a : α} :
    ∀ {l : List α}, a ∈ l → p a = true → (∀ b ∈ l, p b = true → b = a) →
      l.find? p = some a := by
  intro l
  induction l with
  | nil => simp
  | cons x xs ih =>
      intro hmem hpa huniq
      by_cases hx : p x = true
      · have hxa : x = a := huniq x (List.mem_cons_self x xs) hx
        subst hxa
        exact List.find?_cons_of_pos xs hx
      · have hax : a ≠ x := fun h => hx (h ▸ hpa)
        rw [List.find?_cons_of_neg xs (by simpa using hx)]
        exact ih (by simpa [hax] using hmem) hpa
          (fun b hb hpb => huniq b (List.mem_cons_of_mem x hb) hpb)

/-- After erasing the first exact-key match from a duplicate-free record
list, no remaining record carries that key. -/
theorem eraseP_keys_ne (k : CacheKey) :
    ∀ l : List CacheRecord, l.Pairwise (fun a b => a.key ≠ b.key) →
      ∀ a ∈ l.eraseP (exactKeyMatch k), a.key ≠ k := by
  intro l
  induction l with
  | nil => simp
  | cons r rest ih =>
      intro hpw a ha
      rw [List.pairwise_cons] at hpw
      by_cases hr : exactKeyMatch k r = true
      · rw [List.eraseP_cons_of_pos hr] at ha
        have hk : r.key = k := (exactKeyMatch_iff k r).mp hr
        exact fun hak => (hpw.1 a ha) (by rw [hak, hk])
      · rw [List.eraseP_cons_of_neg (by simpa using hr)] at ha
        rcases List.mem_cons.mp ha with rfl | ha'
        · exact fun hak => hr ((exactKeyMatch_iff k a).mpr hak)
        · exact ih hpw.2 a ha'

/-- One `put` preserves the at-most-one-record-per-key invariant. -/
theorem put_preserves_unique (st : CacheState) (k : CacheKey) (t : Table)
    (h : atMostOnePerKey st) : atMostOnePerKey (Cache.put st k t) := by
  unfold Cache.put
  cases hen : !st.enabled with
  | true => simpa using h
  | false =>
      simp only [Bool.false_eq_true, if_false]
      unfold atMostOnePerKey at h ⊢
      simp only [Cache.deleteEntry]
      rw [List.pairwise_append]
      refine ⟨h.sublist (List.eraseP_sublist st.records), List.pairwise_singleton _ _,
        fun a ha b hb => ?_⟩
      rw [List.mem_singleton] at hb
      subst hb
      exact fun hak => (eraseP_keys_ne k st.records h a ha) (by simpa using hak)

/-- `put` never changes the `enabled` flag. -/
theorem put_enabled (st : CacheState) (k : CacheKey) (t : Table) :
    (Cache.put st k t).enabled = st.enabled := by
  unfold Cache.put
  cases !st.enabled <;> simp

/-- On an enabled cache, `put` replaces the exact-key record and appends
the new one. -/
theorem put_records_of_enabled (st : CacheState) (k : CacheKey) (t : Table)
    (hen : st.enabled = true) :
    (Cache.put st k t).records = Cache.deleteEntry st.records k ++ [⟨k, t⟩] := by
  unfold Cache.put
  rw [hen]
  simp

/-! ## Theorems -/

/-- C10: for every cache state, `Client.list_cached` never returns the
cached entries — it always raises `AttributeError`, because it invokes
`list_cached_entries` while the `Cache` class defines the enumeration
method as `list_cached_symbols`. -/
theorem list_cached_raises_attribute_error (st : CacheState) :
    Client.list_cached st = .attributeError "list_cached_entries" := rfl

/-- C2: code behaviour at the clear-scoping scenario.  After populating
entries for `("p","A")`, `("p","B")` and `("q","A")`, the orchestrator's
`clear_cache(provider="p")` — which delegates to `Cache.clear` with
`symbol=None`, landing in that method's clear-all branch — deletes every
record, and the `("q","A")` entry is no longer retrievable, contrary to
the claimed scoping. -/
theorem clear_cache_by_provider_clears_all :
    (Client.clear_cache clearScopeState (some "p")).records = [] ∧
    Cache.get (Client.clear_cache clearScopeState (some "p"))
      "q" "A" none none "2024-01-01" "2024-01-31" = none := by
  constructor <;> rfl

/-- C7: cache errors are never fatal.  For every storage layer, a
serialization failure makes `put` a no-op on the cache state, and a
lookup whose blob fails to deserialize makes `get` report a miss
(`none`); the wrappers are total, so no exception reaches the caller. -/
theorem cache_errors_degrade (sto : Storage) (st : CacheState)
    (k : CacheKey) (data : Table) (source symbol : String)
    (field path : Option String) (s e msg msg' : String) (r : CacheRecord)
    (hser : sto.serialize data = .error msg)
    (hfind : st.records.find? (getMatch source symbol field path s e) = some r)
    (hde : sto.deserialize r.table = .error msg') :
    Cache.putSafe sto st k data = st ∧
    Cache.getSafe sto st source symbol field path s e = none := by
  constructor
  · unfold Cache.putSafe
    cases hen : !st.enabled with
    | true => simp
    | false => simp [Cache.putBody, hser]
  · unfold Cache.getSafe
    cases hen : !st.enabled with
    | true => simp
    | false => simp [Cache.getBody, hfind, hde, bind, Except.bind]

/-- Witness for `cache_errors_degrade`: a concrete always-failing
storage layer, a one-record cache and a request hitting that record. -/
theorem cache_errors_degrade_witness :
    Cache.putSafe ⟨fun _ => .error "disk full", fun _ => .error "corrupt"⟩
        ⟨true, [⟨⟨"p", "A", none, none, "2024-01-01", "2024-01-31"⟩, [("2024-01-02", 1)]⟩]⟩
        ⟨"p", "B", none, none, "2024-01-01", "2024-01-31"⟩ [("2024-01-03", 4)]
      = ⟨true, [⟨⟨"p", "A", none, none, "2024-01-01", "2024-01-31"⟩, [("2024-01-02", 1)]⟩]⟩ ∧
    Cache.getSafe ⟨fun _ => .error "disk full", fun _ => .error "corrupt"⟩
        ⟨true, [⟨⟨"p", "A", none, none, "2024-01-01", "2024-01-31"⟩, [("2024-01-02", 1)]⟩]⟩
        "p" "A" none none "2024-01-01" "2024-01-31" = none :=
  cache_errors_degrade
    ⟨fun _ => .error "disk full", fun _ => .error "corrupt"⟩
    ⟨true, [⟨⟨"p", "A", none, none, "2024-01-01", "2024-01-31"⟩, [("2024-01-02", 1)]⟩]⟩
    ⟨"p", "B", none, none, "2024-01-01", "2024-01-31"⟩ [("2024-01-03", 4)]
    "p" "A" none none "2024-01-01" "2024-01-31" "disk full" "corrupt"
    ⟨⟨"p", "A", none, none, "2024-01-01", "2024-01-31"⟩, [("2024-01-02", 1)]⟩
    rfl rfl rfl

/-- C3: null-key discrimination.  Whenever `Cache.get` returns data, the
record it came from matches the request on all four key components
(provider, symbol, field, path) with null matching only null — so a
`get` with `field=null` never returns a record stored with a non-null
field, and vice versa, for every combination of null/non-null `field`
and `path`. -/
theorem cache_get_null_key_discrimination (st : CacheState)
    (source symbol : String) (field path : Option String)
    (s e : String) (t : Table)
    (h : Cache.get st source symbol field path s e = some t) :
    ∃ r ∈ st.records,
      r.key.source = source ∧ r.key.symbol = symbol ∧
      r.key.field = field ∧ r.key.path = path ∧
      dateLe r.key.start_date s = true ∧ dateLe e r.key.end_date = true ∧
      (t = r.table ∨ t = filterRange s e r.table) := by
  unfold Cache.get at h
  cases hen : !st.enabled with
  | true => rw [hen] at h; simp at h
  | false =>
      rw [hen] at h
      simp only [Bool.false_eq_true, if_false] at h
      cases hf : st.records.find? (getMatch source symbol field path s e) with
      | none => rw [hf] at h; simp at h
      | some r =>
          rw [hf] at h
          dsimp only at h
          have hmem := List.mem_of_find?_eq_some hf
          have hmatch := List.find?_some hf
          rw [getMatch_iff] at hmatch
          obtain ⟨hkey, h1, h2⟩ := hmatch
          rw [keyMatch_iff] at hkey
          refine ⟨r, hmem, hkey.1, hkey.2.1, hkey.2.2.1, hkey.2.2.2, h1, h2, ?_⟩
          by_cases hrange : (s != r.key.start_date || e != r.key.end_date) = true
          · rw [if_pos hrange] at h
            exact Or.inr (Option.some.inj h).symm
          · rw [if_neg hrange] at h
            exact Or.inl (Option.some.inj h).symm

/-- Witness for `cache_get_null_key_discrimination`: a concrete hit on a
record stored with `field="X"`, `path=null`. -/
theorem cache_get_null_key_discrimination_witness :
    ∃ r ∈ (⟨true, [⟨⟨"p", "A", some "X", none, "2024-01-01", "2024-01-31"⟩,
        [("2024-01-02", 1)]⟩]⟩ : CacheState).records,
      r.key.source = "p" ∧ r.key.symbol = "A" ∧
      r.key.field = some "X" ∧ r.key.path = (none : Option String) ∧
      dateLe r.key.start_date "2024-01-01" = true ∧
      dateLe "2024-01-31" r.key.end_date = true ∧
      ([("2024-01-02", (1 : Int))] = r.table ∨
        [("2024-01-02", (1 : Int))] = filterRange "2024-01-01" "2024-01-31" r.table) :=
  cache_get_null_key_discrimination
    ⟨true, [⟨⟨"p", "A", some "X", none, "2024-01-01", "2024-01-31"⟩, [("2024-01-02", 1)]⟩]⟩
    "p" "A" (some "X") none "2024-01-01" "2024-01-31" [("2024-01-02", 1)] rfl

/-- C1, counterexample to the claim as stated: a stored record whose
table holds a row dated outside its own `[s,e]` range.  A `get` for
exactly `[s,e]` (which is contained in `[s,e]`) skips the sub-range
filter and returns that out-of-range row, so `get` does not return
"exactly the rows whose index falls within `[s',e']`". -/
theorem cache_get_containment_counterexample :
    Cache.get
        ⟨true, [⟨⟨"p", "A", none, none, "2024-01-01", "2024-01-31"⟩,
          [("2024-02-10", 2)]⟩]⟩
        "p" "A" none none "2024-01-01" "2024-01-31"
      = some [("2024-02-10", 2)] ∧
    dateLe "2024-02-10" "2024-01-31" = false :=
  ⟨rfl, rfl⟩

/-- C1 as amended: range-containment lookup, for a record that is the
only one matching the four-component key and whose stored rows all lie
within its own range (as rows fetched for that range do).  `Cache.get`
on a contained `[s',e']` returns exactly the stored rows within
`[s',e']`; and whenever no key-matching record's range contains
`[s',e']`, it returns absent. -/
theorem cache_get_containment (source symbol : String)
    (field path : Option String) (s' e' : String) :
    (∀ (st : CacheState) (r : CacheRecord),
      st.enabled = true → r ∈ st.records →
      keyMatch source symbol field path r.key = true →
      (∀ r' ∈ st.records, keyMatch source symbol field path r'.key = true → r' = r) →
      (∀ row ∈ r.table, dateLe r.key.start_date row.1 = true ∧
        dateLe row.1 r.key.end_date = true) →
      dateLe r.key.start_date s' = true → dateLe e' r.key.end_date = true →
      Cache.get st source symbol field path s' e'
        = some (filterRange s' e' r.table)) ∧
    (∀ st : CacheState,
      (∀ r' ∈ st.records, keyMatch source symbol field path r'.key = true →
        ¬(dateLe r'.key.start_date s' = true ∧ dateLe e' r'.key.end_date = true)) →
      Cache.get st source symbol field path s' e' = none) := by
  constructor
  · intro st r hen hmem hkey huniq hrows hs he
    unfold Cache.get
    rw [hen]
    simp only [Bool.not_true, Bool.false_eq_true, if_false]
    rw [find_of_unique hmem ((getMatch_iff _ _ _ _ _ _ _).mpr ⟨hkey, hs, he⟩)
      (fun b hb hpb => huniq b hb ((getMatch_iff _ _ _ _ _ _ _).mp hpb).1)]
    dsimp only
    by_cases hrange : (s' != r.key.start_date || e' != r.key.end_date) = true
    · rw [if_pos hrange]
    · rw [if_neg hrange]
      simp only [Bool.or_eq_true, bne_iff_ne, not_or, not_not] at hrange
      have hfix : filterRange s' e' r.table = r.table := by
        apply List.filter_eq_self.mpr
        intro row hrow
        rw [Bool.and_eq_true, hrange.1, hrange.2]
        exact ⟨(hrows row hrow).1, (hrows row hrow).2⟩
      rw [hfix]
  · intro st hnone
    unfold Cache.get
    cases hen : !st.enabled with
    | true => simp
    | false =>
        simp only [Bool.false_eq_true, if_false]
        rw [List.find?_eq_none.mpr ?_]
        intro r' hr' hm
        rw [getMatch_iff] at hm
        exact hnone r' hr' hm.1 ⟨hm.2.1, hm.2.2⟩

/-- Witness for `cache_get_containment`: a record cached for January
2024 with two in-range rows; a narrower request returns exactly the row
in the sub-range, and a February request (not contained) misses. -/
theorem cache_get_containment_witness :
    Cache.get
        ⟨true, [⟨⟨"p", "A", none, none, "2024-01-01", "2024-01-31"⟩,
          [("2024-01-05", 1), ("2024-01-20", 2)]⟩]⟩
        "p" "A" none none "2024-01-10" "2024-01-31"
      = some (filterRange "2024-01-10" "2024-01-31"
          [("2024-01-05", 1), ("2024-01-20", 2)]) ∧
    Cache.get
        ⟨true, [⟨⟨"p", "A", none, none, "2024-01-01", "2024-01-31"⟩,
          [("2024-01-05", 1), ("2024-01-20", 2)]⟩]⟩
        "p" "A" none none "2024-02-01" "2024-02-29" = none := by
  constructor
  · exact (cache_get_containment "p" "A" none none "2024-01-10" "2024-01-31").1
      ⟨true, [⟨⟨"p", "A", none, none, "2024-01-01", "2024-01-31"⟩,
        [("2024-01-05", 1), ("2024-01-20", 2)]⟩]⟩
      ⟨⟨"p", "A", none, none, "2024-01-01", "2024-01-31"⟩,
        [("2024-01-05", 1), ("2024-01-20", 2)]⟩
      rfl (by simp) rfl
      (by intro r' h hk; simpa using h)
      (by decide) rfl rfl
  · exact (cache_get_containment "p" "A" none none "2024-02-01" "2024-02-29").2
      ⟨true, [⟨⟨"p", "A", none, none, "2024-01-01", "2024-01-31"⟩,
        [("2024-01-05", 1), ("2024-01-20", 2)]⟩]⟩
      (by intro r' h hk; simp at h; subst h; decide)

/-- C6: at most one live record per composite key.  From a fresh cache,
any sequence of `put` operations leaves pairwise-distinct keys; and on
any state satisfying the invariant, two `put`s with the same key and
different payloads leave exactly one record under that key, holding the
second payload (`put` deletes the exact-key record before inserting). -/
theorem put_at_most_one_record_per_key :
    (∀ (en : Bool) (ops : List (CacheKey × Table)),
      atMostOnePerKey (putsFold ⟨en, []⟩ ops)) ∧
    (∀ (st : CacheState) (k : CacheKey) (t₁ t₂ : Table),
      st.enabled = true → atMostOnePerKey st →
      (Cache.put (Cache.put st k t₁) k t₂).records.filter
        (fun r => r.key == k) = [⟨k, t₂⟩]) := by
  constructor
  · intro en ops
    have gen : ∀ (ops : List (CacheKey × Table)) (st : CacheState),
        atMostOnePerKey st → atMostOnePerKey (putsFold st ops) := by
      intro ops
      induction ops with
      | nil => intro st h; exact h
      | cons op rest ih =>
          intro st h
          exact ih (Cache.put st op.1 op.2) (put_preserves_unique st op.1 op.2 h)
    exact gen ops ⟨en, []⟩ (List.Pairwise.nil)
  · intro st k t₁ t₂ hen hinv
    have h1 : (Cache.put st k t₁).records
        = Cache.deleteEntry st.records k ++ [⟨k, t₁⟩] :=
      put_records_of_enabled st k t₁ hen
    have hne : ∀ a ∈ Cache.deleteEntry st.records k, a.key ≠ k :=
      eraseP_keys_ne k st.records hinv
    have hen1 : (Cache.put st k t₁).enabled = true := by rw [put_enabled, hen]
    have h2 : (Cache.put (Cache.put st k t₁) k t₂).records
        = Cache.deleteEntry st.records k ++ [⟨k, t₂⟩] := by
      rw [put_records_of_enabled _ k t₂ hen1]
      show Cache.deleteEntry (Cache.put st k t₁).records k ++ [⟨k, t₂⟩] = _
      rw [h1]
      unfold Cache.deleteEntry
      rw [List.eraseP_append_right _
        (fun b hb => by simpa using fun hbk => hne b hb ((exactKeyMatch_iff k b).mp hbk))]
      rw [List.eraseP_cons_of_pos ((exactKeyMatch_iff k ⟨k, t₁⟩).mpr rfl)]
      simp
    rw [h2, List.filter_append]
    rw [List.filter_eq_nil_iff.mpr
      (fun a ha => by simpa using hne a ha)]
    simp

/-- Witness for `put_at_most_one_record_per_key`: two same-key `put`s on
a concretely populated cache leave one record with the second payload;
and a concrete `put` sequence from empty keeps keys distinct. -/
theorem put_at_most_one_record_per_key_witness :
    (Cache.put (Cache.put clearScopeState
        ⟨"p", "A", none, none, "2024-01-01", "2024-01-31"⟩ [("2024-01-03", 7)])
        ⟨"p", "A", none, none, "2024-01-01", "2024-01-31"⟩ [("2024-01-04", 9)]).records.filter
      (fun r => r.key == ⟨"p", "A", none, none, "2024-01-01", "2024-01-31"⟩)
      = [⟨⟨"p", "A", none, none, "2024-01-01", "2024-01-31"⟩, [("2024-01-04", 9)]⟩] ∧
    atMostOnePerKey (putsFold ⟨true, []⟩
      [(⟨"p", "A", none, none, "2024-01-01", "2024-01-31"⟩, [("2024-01-02", 1)]),
       (⟨"p", "A", none, none, "2024-01-01", "2024-01-31"⟩, [("2024-01-03", 2)])]) :=
  ⟨put_at_most_one_record_per_key.2 clearScopeState
      ⟨"p", "A", none, none, "2024-01-01", "2024-01-31"⟩
      [("2024-01-03", 7)] [("2024-01-04", 9)] rfl
      (by unfold atMostOnePerKey; decide),
   put_at_most_one_record_per_key.1 true _⟩

/-- C4: the column-resolution fallback chain.  For a request with a
(nonempty) field: (a) the exact `symbol::field` composite wins when the
response contains it; (b) otherwise the bare symbol column wins — in
particular a response with only a bare symbol column for a request with
a field resolves at step (b); (c) otherwise a case-insensitive match of
the symbol name wins; and when every step misses, that single entry is
omitted from the batch's results while every other entry is processed
unchanged. -/
theorem column_resolution_fallback_chain :
    (∀ (cols : List String) (symbol f : String), f ≠ "" →
      (symbol ++ "::" ++ f) ∈ cols →
      resolveColumn cols symbol (some f) = some (symbol ++ "::" ++ f)) ∧
    (∀ (cols : List String) (symbol f : String), f ≠ "" →
      (symbol ++ "::" ++ f) ∉ cols → symbol ∈ cols →
      resolveColumn cols symbol (some f) = some symbol) ∧
    (∀ (cols : List String) (symbol f actual : String), f ≠ "" →
      (symbol ++ "::" ++ f) ∉ cols → symbol ∉ cols →
      lowerToActual cols (strLower symbol) = some actual →
      resolveColumn cols symbol (some f) = some actual) ∧
    (∀ (cols : List String) (symbol f : String), f ≠ "" →
      (symbol ++ "::" ++ f) ∉ cols → symbol ∉ cols →
      lowerToActual cols (strLower symbol) = none →
      resolveColumn cols symbol (some f) = none) ∧
    (∀ (df : WideTable) (pre post : List CatalogEntry) (e : CatalogEntry),
      resolveColumn (df.map Prod.fst) e.symbol e.field = none →
      processGroup (pre ++ e :: post) df
        = processGroup pre df ++ processGroup post df) := by
  refine ⟨?_, ?_, ?_, ?_, ?_⟩
  · intro cols symbol f hf h1
    simp [resolveColumn, make_column_name, hf, List.contains, List.elem_iff, h1]
  · intro cols symbol f hf h1 h2
    simp [resolveColumn, make_column_name, hf, List.contains, List.elem_iff, h1, h2]
  · intro cols symbol f actual hf h1 h2 h3
    simp [resolveColumn, make_column_name, hf, List.contains, List.elem_iff,
      h1, h2, h3]
  · intro cols symbol f hf h1 h2 h3
    simp [resolveColumn, make_column_name, hf, List.contains, List.elem_iff,
      h1, h2, h3]
  · intro df pre post e h
    simp [processGroup, resolveEntries, List.filterMap_append, h]

/-- Witness for `column_resolution_fallback_chain`: the spec's scenario —
a provider returned only the bare `SPX` column although the request
carried field `PX_LAST`, and step (b) resolves it. -/
theorem column_resolution_fallback_chain_witness :
    resolveColumn ["SPX"] "SPX" (some "PX_LAST") = some "SPX" :=
  column_resolution_fallback_chain.2.1 ["SPX"] "SPX" "PX_LAST"
    (by decide) (by decide) (by decide)

/-- `filter`-then-`map` as a single `filterMap`. -/
theorem filter_map_eq_filterMap {α β : Type} (c : α → Bool) (g : α → β) :
    ∀ l : List α,
      (l.filter c).map g = l.filterMap (fun a => if c a then some (g a) else none) := by
  intro l
  induction l with
  | nil => rfl
  | cons x xs ih =>
      by_cases hx : c x = true
      · rw [List.filter_cons_of_pos hx, List.map_cons,
          List.filterMap_cons_some (by rw [hx]; rfl), ih]
      · rw [List.filter_cons_of_neg (by simpa using hx),
          List.filterMap_cons_none (by simp [hx]), ih]

/-- Keeping exactly the elements on which an option-valued observation
fires is a `filter` by `isSome`. -/
theorem filterMap_guard_eq_filter {α β : Type} (o : α → Option β) :
    ∀ l : List α,
      l.filterMap (fun a => (o a).map (fun _ => a))
        = l.filter (fun a => (o a).isSome) := by
  intro l
  induction l with
  | nil => rfl
  | cons x xs ih =>
      cases hx : o x with
      | none =>
          rw [List.filterMap_cons_none (by rw [hx]; rfl),
            List.filter_cons_of_neg (by simp [hx]), ih]
      | some b =>
          rw [List.filterMap_cons_some (by rw [hx]; rfl),
            List.filter_cons_of_pos (by simp [hx]), ih]

/-- `_assemble_dataframe`, characterised: for each requested name in
order, the frame obtained under that name (if any) contributes one
column, renamed to the name, holding the first column of that frame. -/
theorem assemble_spec (dfs : List (String × WideTable)) (names : List String) :
    assemble dfs names = names.filterMap (fun n =>
      (dfs.find? (fun p => p.1 == n)).map
        (fun p => (n, ((p.2.head?.map Prod.snd).getD [])))) := by
  unfold assemble
  by_cases hd : dfs.isEmpty
  · rw [if_pos hd]
    rw [List.isEmpty_iff.mp hd]
    simp
  · rw [if_neg hd]
    rw [filter_map_eq_filterMap]
    refine congrArg (fun f => List.filterMap f names) (funext fun n => ?_)
    simp only [List.find?_map]
    have hcomp : ((fun (c : String × List Value) => c.1 == n) ∘
        (fun (p : String × WideTable) =>
          (p.1, (Option.map Prod.snd (List.head? p.2)).getD [])))
        = fun (p : String × WideTable) => p.1 == n := rfl
    rw [hcomp]
    cases hfind : dfs.find? (fun p => p.1 == n) with
    | none =>
        have hnone := List.find?_eq_none.mp hfind
        have hcond : ((dfs.map (fun p =>
            (p.1, (Option.map Prod.snd (List.head? p.2)).getD []))).any
              fun c => c.1 == n) = false := by
          rw [List.any_eq_false]
          intro c hc
          obtain ⟨p, hp, rfl⟩ := List.mem_map.mp hc
          exact hnone p hp
        rw [hcond]
        simp
    | some q =>
        have hcond : ((dfs.map (fun p =>
            (p.1, (Option.map Prod.snd (List.head? p.2)).getD []))).any
              fun c => c.1 == n) = true := by
          rw [List.any_eq_true]
          exact ⟨(q.1, (Option.map Prod.snd (List.head? q.2)).getD []),
            List.mem_map.mpr ⟨q, List.mem_of_find?_eq_some hfind, rfl⟩,
            by simpa using List.find?_some hfind⟩
        rw [hcond]
        simp

/-- The assembled column names are the requested names, in request
order, restricted to the names for which a frame was obtained. -/
theorem assemble_columns (dfs : List (String × WideTable)) (names : List String) :
    (assemble dfs names).map Prod.fst
      = names.filter (fun n => (dfs.map Prod.fst).contains n) := by
  rw [assemble_spec, List.map_filterMap]
  have heq : (fun n => ((dfs.find? (fun p => p.1 == n)).map
      (fun p => (n, ((p.2.head?.map Prod.snd).getD [])))).map Prod.fst)
      = fun n => (dfs.find? (fun p => p.1 == n)).map (fun _ => n) := by
    funext n
    cases dfs.find? (fun p => p.1 == n) <;> rfl
  rw [heq, filterMap_guard_eq_filter]
  refine congrArg (List.filter · names) (funext fun n => ?_)
  rw [Bool.eq_iff_iff]
  constructor
  · intro h
    obtain ⟨p, hp, hpn⟩ := List.find?_isSome.mp h
    have : n ∈ dfs.map Prod.fst :=
      List.mem_map.mpr ⟨p, hp, (beq_iff_eq.mp hpn)⟩
    simpa [List.contains, List.elem_iff] using this
  · intro h
    have : n ∈ dfs.map Prod.fst := by
      simpa [List.contains, List.elem_iff] using h
    obtain ⟨p, hp, hpn⟩ := List.mem_map.mp this
    exact List.find?_isSome.mpr ⟨p, hp, beq_iff_eq.mpr hpn⟩

/-- C5, counterexample to the claim as stated: with a duplicated
requested name `["a","a"]` and data obtained for `"a"`, the assembled
frame carries two columns for the single obtained name, not exactly
one. -/
theorem assemble_order_counterexample :
    (assemble [("a", [("x", [(1 : Int)])])] ["a", "a"]).map Prod.fst
      = ["a", "a"] := rfl

/-- C5 as amended: for a duplicate-free requested-name list, the
assembled table has exactly one column per obtained name (its first
column renamed to the logical name), in exactly the input order, and
the column layout is invariant under any reordering (permutation) of
the internal name→frame map. -/
theorem assemble_order_preservation (dfs : List (String × WideTable))
    (names : List String) (hnames : names.Nodup) :
    ((assemble dfs names).map Prod.fst
        = names.filter (fun n => (dfs.map Prod.fst).contains n)) ∧
    ((assemble dfs names).map Prod.fst).Nodup ∧
    (assemble dfs names = names.filterMap (fun n =>
      (dfs.find? (fun p => p.1 == n)).map
        (fun p => (n, ((p.2.head?.map Prod.snd).getD []))))) ∧
    (∀ dfs₂ : List (String × WideTable), dfs₂.Perm dfs →
      (assemble dfs₂ names).map Prod.fst = (assemble dfs names).map Prod.fst) := by
  refine ⟨assemble_columns dfs names, ?_, assemble_spec dfs names, ?_⟩
  · rw [assemble_columns]
    exact hnames.filter _
  · intro dfs₂ hperm
    rw [assemble_columns, assemble_columns]
    refine congrArg (List.filter · names) (funext fun n => ?_)
    rw [Bool.eq_iff_iff]
    have hm : n ∈ dfs₂.map Prod.fst ↔ n ∈ dfs.map Prod.fst :=
      (hperm.map Prod.fst).mem_iff
    constructor <;> intro h
    · simpa [List.contains, List.elem_iff] using
        hm.mp (by simpa [List.contains, List.elem_iff] using h)
    · simpa [List.contains, List.elem_iff] using
        hm.mpr (by simpa [List.contains, List.elem_iff] using h)

/-- Witness for `assemble_order_preservation`: the spec's scenario
`get(["c","a","b"], …)` — columns come back as `["c","a","b"]` whatever
order the internal map holds them in. -/
theorem assemble_order_preservation_witness :
    (assemble [("a", [("x", [(1 : Int)])]), ("b", [("y", [2])]), ("c", [("z", [3])])]
        ["c", "a", "b"]).map Prod.fst
      = (["c", "a", "b"]).filter (fun n =>
          (([("a", [("x", [(1 : Int)])]), ("b", [("y", [2])]),
            ("c", [("z", [3])])]).map Prod.fst).contains n) :=
  (assemble_order_preservation
    [("a", [("x", [(1 : Int)])]), ("b", [("y", [2])]), ("c", [("z", [3])])]
    ["c", "a", "b"] (by decide)).1

/-- The list comprehension `[catalog.get(name) for name in names]`
raises at the first unresolvable name. -/
theorem mapM_catalog_first_missing (cat : List CatalogEntry) :
    ∀ (names : List String) (n : String),
      names.find? (fun nm => (cat.find? (fun e => e.my_name == nm)).isNone) = some n →
      names.mapM (Catalog.get cat) = .error (notFoundMessage cat n) := by
  intro names
  induction names with
  | nil => simp
  | cons m ms ih =>
      intro n h
      rw [List.find?_cons] at h
      cases hfe : cat.find? (fun e => e.my_name == m) with
      | none =>
          rw [show (List.find? (fun e => e.my_name == m) cat).isNone = true
            by rw [hfe]; rfl] at h
          dsimp only at h
          obtain rfl : m = n := Option.some.inj h
          have hget : Catalog.get cat m = .error (notFoundMessage cat m) := by
            unfold Catalog.get
            rw [hfe]
          rw [List.mapM_cons, hget]
          rfl
      | some e =>
          rw [show (List.find? (fun e => e.my_name == m) cat).isNone = false
            by rw [hfe]; rfl] at h
          dsimp only at h
          have hget : Catalog.get cat m = .ok e := by
            unfold Catalog.get
            rw [hfe]
          rw [List.mapM_cons, hget, ih n h]
          rfl

/-- C9: fail-fast resolution with no partial results.  If any requested
name is unresolvable, `Client.get` fails with the catalog's
name-not-found error for the first such name — a message naming the
offending entry and a sample of valid names — before any cache probe,
provider fetch or cache write happens (the effect trace is empty), and
no table is returned. -/
theorem resolution_fail_fast_no_partial_results (cat : List CatalogEntry)
    (st : CacheState) (fetch : String → List CatalogEntry → WideTable)
    (names : List String) (start_date end_date : String) (n : String)
    (h : names.find? (fun nm => (cat.find? (fun e => e.my_name == nm)).isNone) = some n) :
    clientGet cat st fetch names start_date end_date
      = (.error (notFoundMessage cat n), []) := by
  unfold clientGet
  rw [mapM_catalog_first_missing cat names n h]

/-- Witness for `resolution_fail_fast_no_partial_results`: a one-entry
catalog, a query naming a resolvable and an unknown name. -/
theorem resolution_fail_fast_no_partial_results_witness :
    clientGet [⟨"gdp", "macrobond", "usgdp", none, none⟩] clearScopeState
        (fun _ _ => []) ["gdp", "bogus"] "2024-01-01" "2024-03-31"
      = (.error (notFoundMessage [⟨"gdp", "macrobond", "usgdp", none, none⟩] "bogus"), []) :=
  resolution_fail_fast_no_partial_results
    [⟨"gdp", "macrobond", "usgdp", none, none⟩] clearScopeState
    (fun _ _ => []) ["gdp", "bogus"] "2024-01-01" "2024-03-31" "bogus" rfl

/-- A gapless consecutive period trace is an arithmetic range. -/
theorem consec_eq_range' :
    ∀ (l : List Nat) (m0 : Nat), consecFrom m0 l = true → l = List.range' m0 l.length := by
  intro l
  induction l with
  | nil => intro m0 _; rfl
  | cons m rest ih =>
      intro m0 h
      unfold consecFrom at h
      rw [Bool.and_eq_true, beq_iff_eq] at h
      rw [List.length_cons, List.range'_succ, h.1]
      exact congrArg (fun l => m0 :: l) (ih (m0 + 1) h.2)

/-- Last element of a nonempty arithmetic range. -/
theorem getLast?_range'_succ (m0 n : Nat) :
    (List.range' m0 (n + 1)).getLast? = some (m0 + n) := by
  rw [List.range'_1_concat, List.getLast?_concat]

/-- On a frame whose period trace is exactly `range' m0 len`, the rows
of period `m0 + i` are exactly the `i`-th row. -/
theorem filter_of_map_range' (p : MDate → Nat) :
    ∀ (rows : Series) (m0 i : Nat) (hi : i < rows.length),
      rows.map (fun r => p r.1) = List.range' m0 rows.length →
      rows.filter (fun r => p r.1 == m0 + i) = [rows.get ⟨i, hi⟩] := by
  intro rows
  induction rows with
  | nil => intro m0 i hi _; exact absurd hi (Nat.not_lt_zero i)
  | cons r rest ih =>
      intro m0 i hi hmap
      rw [List.map_cons, List.length_cons, List.range'_succ] at hmap
      injection hmap with h1 h2
      cases i with
      | zero =>
          rw [List.filter_cons_of_pos (by simp [h1])]
          have hrest : rest.filter (fun x => p x.1 == m0 + 0) = [] := by
            rw [List.filter_eq_nil_iff]
            intro a ha hcontra
            have hmem : p a.1 ∈ List.range' (m0 + 1) rest.length := by
              rw [← h2]
              exact List.mem_map.mpr ⟨a, ha, rfl⟩
            obtain ⟨j, _, hje⟩ := List.mem_range'.mp hmem
            rw [beq_iff_eq] at hcontra
            omega
          rw [hrest]
          rfl
      | succ j =>
          rw [List.filter_cons_of_neg (by rw [beq_iff_eq, h1]; omega)]
          rw [show m0 + (j + 1) = (m0 + 1) + j by omega]
          exact ih (m0 + 1) j (Nat.lt_of_succ_lt_succ hi) h2

/-- Forward fill is the identity on a frame with no missing cells. -/
theorem ffill_all_some :
    ∀ (l : List (Nat × Option Value)) (prev : Option Value),
      (∀ x ∈ l, (x.2).isSome = true) → ffillFrom prev l = l := by
  intro l
  induction l with
  | nil => intro prev _; rfl
  | cons x rest ih =>
      intro prev h
      obtain ⟨m, v⟩ := x
      cases v with
      | none => exact absurd (h (m, none) (List.mem_cons_self _ _)) (by simp)
      | some a =>
          show (m, some a) :: ffillFrom (some a) rest = (m, some a) :: rest
          rw [ih (some a) (fun y hy => h y (List.mem_cons_of_mem _ hy))]

/-- Aligning a frame already on the period grid is the identity on the
values: `resample(target).last().ffill()` returns each row's own value
at its own period. -/
theorem align_on_grid (p : MDate → Nat) (rows : Series)
    (h : onGrid p rows = true) :
    alignLast p rows = rows.map (fun r => (p r.1, some r.2)) := by
  cases rows with
  | nil => simp [onGrid] at h
  | cons r0 rest =>
      unfold onGrid at h
      have hmap : (r0 :: rest).map (fun x => p x.1)
          = List.range' (p r0.1) ((r0 :: rest).length) := by
        have := consec_eq_range' ((r0 :: rest).map (fun x => p x.1)) (p r0.1) h
        simpa using this
      have hlast : (r0 :: rest).getLast? = some ((r0 :: rest).getLast (by simp)) :=
        List.getLast?_eq_getLast _ _
      have hplast : p ((r0 :: rest).getLast (by simp)).1 = p r0.1 + rest.length := by
        have hl1 : ((r0 :: rest).map (fun x => p x.1)).getLast?
            = some (p ((r0 :: rest).getLast (by simp)).1) := by
          rw [List.getLast?_map, hlast]
          rfl
        rw [hmap] at hl1
        rw [show (r0 :: rest).length = rest.length + 1 from rfl,
          getLast?_range'_succ] at hl1
        exact (Option.some.inj hl1).symm
      have hperiods : periodsOf p (r0 :: rest)
          = List.range' (p r0.1) ((r0 :: rest).length) := by
        unfold periodsOf
        rw [show (r0 :: rest).head? = some r0 from rfl, hlast]
        dsimp only
        rw [List.range'_eq_map_range]
        rw [hplast]
        rw [show p r0.1 + rest.length + 1 - p r0.1 = rest.length + 1 by omega]
        rfl
      unfold alignLast resampleLast
      rw [hperiods, ← hmap, List.map_map]
      have hinner : (r0 :: rest).map
            ((fun m => (m, lastInPeriod p (r0 :: rest) m)) ∘ (fun x => p x.1))
          = (r0 :: rest).map (fun r => (p r.1, some r.2)) := by
        apply List.map_congr_left
        intro a ha
        obtain ⟨i, hi, hget⟩ := List.mem_iff_getElem.mp ha
        have hpa : p a.1 = p r0.1 + i := by
          have hgm : ((r0 :: rest).map (fun x => p x.1))[i]? = some (p a.1) := by
            rw [List.getElem?_map, List.getElem?_eq_getElem hi, hget]
            rfl
          rw [hmap, List.getElem?_range' _ _ (by simpa using hi)] at hgm
          exact (Option.some.inj hgm).symm.trans (by omega)
        show (p a.1, lastInPeriod p (r0 :: rest) (p a.1)) = (p a.1, some a.2)
        have hfilter : (r0 :: rest).filter (fun r => p r.1 == p r0.1 + i)
            = [(r0 :: rest).get ⟨i, hi⟩] :=
          filter_of_map_range' p (r0 :: rest) (p r0.1) i hi hmap
        unfold lastInPeriod
        rw [hpa, hfilter]
        rw [show ((r0 :: rest).get ⟨i, hi⟩) = a from hget]
        rfl
      rw [hinner]
      apply ffill_all_some
      intro x hx
      obtain ⟨r, _, rfl⟩ := List.mem_map.mp hx
      rfl

/-- C8: alignment idempotence and downsample-by-last.  For every period
grid (the grouping a pandas frequency induces on dates) and every
single-column frame already on that grid, `align_to_frequency` returns
the same values; and aligning 90 consecutive daily observations from
2024-01-01 to the monthly grid yields exactly 3 rows — January, February
and March 2024 — each holding the last value of its month (values 30, 59
and 89 of the daily series 0..89). -/
theorem align_idempotent_and_downsample_last :
    (∀ (p : MDate → Nat) (rows : Series), onGrid p rows = true →
      alignLast p rows = rows.map (fun r => (p r.1, some r.2))) ∧
    alignLast monthIndex daily90
      = [(24288, some 30), (24289, some 59), (24290, some 89)] ∧
    (alignLast monthIndex daily90).length = 3 :=
  ⟨fun p rows h => align_on_grid p rows h, rfl, rfl⟩

/-- Witness for `align_idempotent_and_downsample_last`: a concrete
monthly-grid frame (January and February 2024 month-ends) aligned to
monthly keeps its values. -/
theorem align_idempotent_and_downsample_last_witness :
    alignLast monthIndex [(⟨2024, 1, 31⟩, 5), (⟨2024, 2, 29⟩, 7)]
      = ([(⟨2024, 1, 31⟩, 5), (⟨2024, 2, 29⟩, 7)] : Series).map
          (fun r => (monthIndex r.1, some r.2)) :=
  align_idempotent_and_downsample_last.1 monthIndex
    [(⟨2024, 1, 31⟩, 5), (⟨2024, 2, 29⟩, 7)] rfl

end Metapyle
